import Mathlib

set_option linter.unusedSectionVars false

/-
Verification development for the grammatical-evolution toolbox
(`picoga/__init__.py` and `picoga/grammatical.py`).

The Python code is shallowly embedded as executable Lean functions:

* The fitness cache (a Python `OrderedDict`) is a `List (α × Int)` kept in
  insertion order: the oldest entry is the head, the newest the last element.
* The shared random source (`random` module object) is a `RandSrc σ`: a pair
  of deterministic next-value functions threaded through an explicit state
  `σ`.  `nextNat` drives index draws (`random.choices`, `random.choice`) and
  `nextRand` drives the uniform float draw `random.random()` (modelled as a
  rational).  Every theorem quantifies over the source, so the embeddings
  cover every deterministic behaviour of the Python RNG.
* Fitness values are `Int` (any totally ordered numeric type would do).
* Python raising is modelled with `Except String`; places the claims never
  exercise (e.g. `random.choice` of an empty list) use `Inhabited` defaults.
-/

namespace Picoga

variable {α σ : Type} [DecidableEq α] [Inhabited α]

/-- A deterministic random source: the Python `random` object threaded as an
explicit state.  `nextNat` produces the raw draw used for index selection,
`nextRand` the raw draw used for `random.random()` comparisons. -/
structure RandSrc (σ : Type) where
  nextNat : σ → Nat × σ
  nextRand : σ → Rat × σ

/-- `random.choice(pop)`: one uniform draw from `pop` (index is the raw draw
modulo the population size; empty populations fall back to `default`, a case
Python would raise on and the engine never reaches). -/
def pyChoice (R : RandSrc σ) (pop : List α) (s : σ) : α × σ :=
  let u := R.nextNat s
  (pop.getD (u.1 % pop.length) default, u.2)

/-- `random.choices(pop, k=k)`: `k` independent uniform draws with
replacement, consumed left to right. -/
def pyChoices (R : RandSrc σ) (pop : List α) : Nat → σ → List α × σ
  | 0, s => ([], s)
  | k + 1, s =>
    let a := pyChoice R pop s
    let r := pyChoices R pop k a.2
    (a.1 :: r.1, r.2)

/-- Value lookup in the ordered cache (`cache[key]`, as an `Option`). -/
def getVal : List (α × Int) → α → Option Int
  | [], _ => none
  | p :: t, k => if p.1 = k then some p.2 else getVal t k

/-- Key membership test (`key in cache`). -/
def memKey (c : List (α × Int)) (k : α) : Bool :=
  (getVal c k).isSome

/-- `OrderedDict` insertion as performed by `cache.update`: an existing key
keeps its position and gets the new value, a new key is appended at the
newest end. -/
def dictInsert (c : List (α × Int)) (k : α) (v : Int) : List (α × Int) :=
  if memKey c k then c.map (fun p => if p.1 = k then (k, v) else p)
  else c ++ [(k, v)]

/-- Remove every entry for a key (helper for `move_to_end`; keys are unique
in an `OrderedDict`, so at most one entry is removed in the runs the engine
performs). -/
def eraseKey : List (α × Int) → α → List (α × Int)
  | [], _ => []
  | p :: t, k => if p.1 = k then eraseKey t k else p :: eraseKey t k

/-- `cache.move_to_end(key)`: re-append the entry of a present key at the
newest end.  An absent key (which Python would raise on) leaves the cache
unchanged. -/
def moveToEnd (c : List (α × Int)) (k : α) : List (α × Int) :=
  match getVal c k with
  | none => c
  | some v => eraseKey c k ++ [(k, v)]

/-- The `access` closure of `evolve`: read `cache[key]` (defaulting where
Python would raise `KeyError`) and move the entry to the newest end. -/
def access (c : List (α × Int)) (k : α) : Int × List (α × Int) :=
  ((getVal c k).getD 0, moveToEnd c k)

/-- Compute `access` for every member of a list in order, threading the
cache: this is what both `population.sort(key=access)` (CPython computes all
keys first, in list order) and `min(..., key=access)` do to the cache. -/
def accessAll : List (α × Int) → List α → List Int × List (α × Int)
  | c, [] => ([], c)
  | c, x :: xs =>
    let a := access c x
    let r := accessAll a.2 xs
    (a.1 :: r.1, r.2)

/-- `while len(cache) > remember: cache.popitem(False)` — drop oldest entries
(heads) until at most `r` remain. -/
def trim (r : Nat) : List (α × Int) → List (α × Int)
  | [] => []
  | p :: t => if (p :: t).length ≤ r then p :: t else trim r t

/-- The generator `(x for x in rest if x not in cache)`: first element of
`rest` that is not a cache key, together with the remaining cursor. -/
def findUncached (c : List (α × Int)) : List α → Option (α × List α)
  | [] => none
  | y :: ys => if memKey c y then findUncached c ys else some (y, ys)

/-- The bulk fitness update
`cache.update(zip((x for x in pop if x not in cache), map(f, (x for x in pop if x not in cache))))`
with its exact lazy/interleaved operational semantics: `zip` pulls the next
uncached element `x` from the first generator cursor, then the next uncached
element `y` from the second generator cursor, computes `f y`, and
`dict.update` inserts the pair `(x, f y)` before the next pull — so both
membership filters see the partially updated cache.  Returns the updated
cache and the number of fitness invocations. -/
def cacheUpdateZip (f : α → Int) : List (α × Int) → List α → List α → List (α × Int) × Nat
  | c, [], _ => (c, 0)
  | c, x :: xs, cur2 =>
    if memKey c x then cacheUpdateZip f c xs cur2
    else
      match findUncached c cur2 with
      | none => (c, 0)
      | some yr =>
        let c2 := dictInsert c x (f yr.1)
        let r := cacheUpdateZip f c2 xs yr.2
        (r.1, r.2 + 1)

/-- The bulk fitness update as `evolve` performs it: both generator cursors
range over the same population list. -/
def cacheUpdate (f : α → Int) (c : List (α × Int)) (pop : List α) :
    List (α × Int) × Nat :=
  cacheUpdateZip f c pop pop

/-- Single-cursor reference semantics of the bulk update: walk the population
once, appending `(x, f x)` for each element not yet a key of the (evolving)
cache. -/
def cacheUpdateSimple (f : α → Int) : List (α × Int) → List α → List (α × Int) × Nat
  | c, [] => (c, 0)
  | c, x :: xs =>
    if memKey c x then cacheUpdateSimple f c xs
    else
      let r := cacheUpdateSimple f (c ++ [(x, f x)]) xs
      (r.1, r.2 + 1)

/-- Stable ascending insertion on key/member pairs (ties keep the earlier
element first, like CPython's stable sort). -/
def insertPair (p : Int × α) : List (Int × α) → List (Int × α)
  | [] => [p]
  | q :: qs => if p.1 ≤ q.1 then p :: q :: qs else q :: insertPair p qs

/-- Stable ascending sort on key/member pairs.  A stable sort is unique as a
function of its input, so this agrees with CPython's Timsort. -/
def sortPairs : List (Int × α) → List (Int × α)
  | [] => []
  | p :: ps => insertPair p (sortPairs ps)

/-- `population.sort(key=access)`: compute the key of every member in list
order (mutating the cache by recency promotion), then stably sort the
members by key. -/
def pySortByAccess (c : List (α × Int)) (pop : List α) :
    List α × List (α × Int) :=
  let ks := accessAll c pop
  ((sortPairs (ks.1.zip pop)).map Prod.snd, ks.2)

/-- Python `min(items, key=...)` once the key of each item has been computed:
first item having the minimal key. -/
def pyMin : α → Int → List (α × Int) → α
  | best, _, [] => best
  | best, bv, q :: qs => if q.2 < bv then pyMin q.1 q.2 qs else pyMin best bv qs

/-- First-minimal element of a keyed list (`default` on the empty list, which
Python would raise on). -/
def minByKey : List (α × Int) → α
  | [] => default
  | q :: qs => pyMin q.1 q.2 qs

/-- One non-elite tournament slot after another:
`min(random.choices(population, k=tk), key=fitness)` where `fitness` is the
cache `access` closure (so computing the keys promotes entries). -/
def tournLoop (tk : Nat) (R : RandSrc σ) (pop : List α) :
    Nat → List (α × Int) → σ → List α × List (α × Int) × σ
  | 0, c, s => ([], c, s)
  | n + 1, c, s =>
    let ch := pyChoices R pop tk s
    let ks := accessAll c ch.1
    let w := minByKey (ch.1.zip ks.1)
    let r := tournLoop tk R pop n ks.2 ch.2
    (w :: r.1, r.2.1, r.2.2)

/-- The built-in `tournament` selection strategy: keep `population[:elite]`,
then fill the remaining `len(population) - elite` slots with tournament
winners. -/
def tournament (tk : Nat) (pop : List α) (cache : List (α × Int))
    (elite : Nat) (R : RandSrc σ) (s : σ) :
    List α × List (α × Int) × σ :=
  let r := tournLoop tk R pop (pop.length - elite) cache s
  (pop.take elite ++ r.1, r.2.1, r.2.2)

/-- The non-elite part of `breeding`: for each freshly sampled member, draw
`random.random()` and compare with `rate`; on success cross the member with
`random.choice(population)`, otherwise keep the member itself. -/
def breedLoop (pop : List α) (crossover : α → α → σ → α × σ) (rate : Rat)
    (R : RandSrc σ) : List α → σ → List α × σ
  | [], s => ([], s)
  | m :: ms, s =>
    let u := R.nextRand s
    if u.1 < rate then
      let p := pyChoice R pop u.2
      let ch := crossover m p.1 p.2
      let r := breedLoop pop crossover rate R ms ch.2
      (ch.1 :: r.1, r.2)
    else
      let r := breedLoop pop crossover rate R ms u.2
      (m :: r.1, r.2)

/-- `breeding(population, crossover, rate, elite, random)`: keep
`population[:elite]`, then extend with the crossover generator ranging over
`random.choices(population, k=n)` (the slot contents are resampled with
replacement from the population `breeding` receives, not taken
positionally). -/
def breeding (pop : List α) (crossover : α → α → σ → α × σ) (rate : Rat)
    (elite : Nat) (R : RandSrc σ) (s : σ) : List α × σ :=
  let ch := pyChoices R pop (pop.length - elite) s
  let r := breedLoop pop crossover rate R ch.1 ch.2
  (pop.take elite ++ r.1, r.2)

/-- The random-source state at which the breeding loop starts non-elite slot
`i` (counting from the slot member list `ms`): thread, for every preceding
slot, its coin draw and — when the coin fired — its partner draw and its
crossover invocation. -/
def breedStateAt (pop : List α) (crossover : α → α → σ → α × σ) (rate : Rat)
    (R : RandSrc σ) : List α → σ → Nat → σ
  | _, s, 0 => s
  | [], s, _ + 1 => s
  | m :: ms, s, i + 1 =>
    let u := R.nextRand s
    if u.1 < rate then
      let p := pyChoice R pop u.2
      let ch := crossover m p.1 p.2
      breedStateAt pop crossover rate R ms ch.2 i
    else
      breedStateAt pop crossover rate R ms u.2 i

/-- The members `random.choices(population, k=n)` resamples (uniformly, with
replacement, from the population `breeding` receives) to fill the non-elite
slots. -/
def slotMembers (pop : List α) (elite : Nat) (R : RandSrc σ) (s : σ) : List α :=
  (pyChoices R pop (pop.length - elite) s).1

/-- The random-source state at which non-elite slot `i` of `breeding` is
decided: the sampling of the slot members, then the preceding slots'
draws. -/
def slotState (pop : List α) (crossover : α → α → σ → α × σ) (rate : Rat)
    (elite : Nat) (R : RandSrc σ) (s : σ) (i : Nat) : σ :=
  breedStateAt pop crossover rate R (pyChoices R pop (pop.length - elite) s).1
    (pyChoices R pop (pop.length - elite) s).2 i

/-- The non-elite part of `mutation`: map `mutate` over the sampled members,
threading the random state the mutation strategy itself may consume. -/
def mutLoop (mutate : α → σ → α × σ) : List α → σ → List α × σ
  | [], s => ([], s)
  | m :: ms, s =>
    let r := mutate m s
    let t := mutLoop mutate ms r.2
    (r.1 :: t.1, t.2)

/-- `mutation(population, mutate, elite, random)`: keep `population[:elite]`,
then extend with `mutate(member)` for each member of
`random.choices(population, k=n)`. -/
def mutation (pop : List α) (mutate : α → σ → α × σ) (elite : Nat)
    (R : RandSrc σ) (s : σ) : List α × σ :=
  let ch := pyChoices R pop (pop.length - elite) s
  let t := mutLoop mutate ch.1 ch.2
  (pop.take elite ++ t.1, t.2)

/-- The mutable state of one `evolve` run: the current population, the
fitness cache, and the random-source state. -/
structure EvoState (α σ : Type) where
  pop : List α
  cache : List (α × Int)
  s : σ

/-- The head of each `evolve` loop iteration, up to and including the `yield`
point: bulk fitness update, then `population.sort(key=access)`. -/
def stepPre (f : α → Int) (st : EvoState α σ) : EvoState α σ :=
  let c1 := cacheUpdate f st.cache st.pop
  let sp := pySortByAccess c1.1 st.pop
  ⟨sp.1, sp.2, st.s⟩

/-- The tail of each `evolve` loop iteration, after the `yield`: selection,
cache trim, breeding, second bulk fitness update, re-sort, second cache trim,
mutation.  `rem` is the retention bound `max(remember, len(population))`
computed once at the start of the run. -/
def stepPost (f : α → Int) (mutate : α → σ → α × σ) (elite : Nat)
    (rate : Rat) (crossover : α → α → σ → α × σ)
    (selection : List α → List (α × Int) → Nat → RandSrc σ → σ →
      List α × List (α × Int) × σ)
    (R : RandSrc σ) (rem : Nat) (st : EvoState α σ) : EvoState α σ :=
  let t1 := selection st.pop st.cache elite R st.s
  let c2 := trim rem t1.2.1
  let t2 := breeding t1.1 crossover rate elite R t1.2.2
  let t3 := cacheUpdate f c2 t2.1
  let t4 := pySortByAccess t3.1 t2.1
  let c5 := trim rem t4.2
  let t5 := mutation t4.1 mutate elite R t2.2
  ⟨t5.1, c5, t5.2⟩

/-- The state of the `evolve` loop on entry to iteration `k` (iteration `0`
starts from the caller's population and an empty cache). -/
def evolveState (pop0 : List α) (f : α → Int) (mutate : α → σ → α × σ)
    (elite : Nat) (rate : Rat) (crossover : α → α → σ → α × σ)
    (selection : List α → List (α × Int) → Nat → RandSrc σ → σ →
      List α × List (α × Int) × σ)
    (R : RandSrc σ) (remember : Nat) (s0 : σ) : Nat → EvoState α σ
  | 0 => ⟨pop0, [], s0⟩
  | k + 1 =>
    stepPost f mutate elite rate crossover selection R
      (max remember pop0.length)
      (stepPre f
        (evolveState pop0 f mutate elite rate crossover selection R remember s0 k))

/-- The `(population, cache)` pair yielded at generation `k`. -/
def evolveSnapshot (pop0 : List α) (f : α → Int) (mutate : α → σ → α × σ)
    (elite : Nat) (rate : Rat) (crossover : α → α → σ → α × σ)
    (selection : List α → List (α × Int) → Nat → RandSrc σ → σ →
      List α × List (α × Int) × σ)
    (R : RandSrc σ) (remember : Nat) (s0 : σ) (k : Nat) :
    List α × List (α × Int) :=
  let st := stepPre f
    (evolveState pop0 f mutate elite rate crossover selection R remember s0 k)
  (st.pop, st.cache)

/-- `evolve(population, fitness, mutate, elite, rate, crossover, selection,
map, remember, random)`: validate `elite < len(population)` (raising
`ValueError` before any generation is produced otherwise) and return the
infinite stream of yielded `(population, cache)` snapshots. -/
def evolve (pop0 : List α) (f : α → Int) (mutate : α → σ → α × σ)
    (elite : Nat) (rate : Rat) (crossover : α → α → σ → α × σ)
    (selection : List α → List (α × Int) → Nat → RandSrc σ → σ →
      List α × List (α × Int) × σ)
    (R : RandSrc σ) (remember : Nat) (s0 : σ) :
    Except String (Nat → List α × List (α × Int)) :=
  if pop0.length ≤ elite then
    Except.error "Elite count must be lower than population count"
  else
    Except.ok
      (evolveSnapshot pop0 f mutate elite rate crossover selection R remember s0)

/-
Embedding of `picoga/grammatical.py`.

A grammar nonterminal is a Python generator.  Generators are embedded as
resumable state machines over a small value universe `Val` (Python's dynamic
values as `expand` uses them: `None`, strings, binary-operator callables,
sequences, and suspended generators).  A generator body is a `GenProg`: a
finite list of `yield` steps ending in a `return`, with expressions `Expr`
evaluated over the environment of values received so far.  Recursion between
nonterminals goes through their names (`Expr.call`), resolved by the grammar
`Γ : String → GenProg`, exactly like `self.exp()` creating a fresh generator
from a method.
-/

mutual
inductive Val : Type where
  | vnone : Val
  | vstr : String → Val
  | vop : (String → String → String) → Val
  | vseq : List Val → Val
  | vgen : GenProg → List Val → Val
inductive GenProg : Type where
  | ret : Expr → GenProg
  | yld : Expr → GenProg → GenProg
inductive Expr : Type where
  | lit : Val → Expr
  | recv : Nat → Expr
  | call : String → Expr
  | app2 : Expr → Expr → Expr → Expr
  | pair : Expr → Expr → Expr
end

instance : Inhabited Val := ⟨Val.vnone⟩

/-- Evaluate an expression of a generator body.  `recv i` is the `i`-th most
recently received value (the environment holds, newest first, every value
sent into the generator, including the initial `None` priming send, which
well-formed grammar bodies never reference).  `call n` creates a fresh
suspended generator for nonterminal `n`.  `app2` applies a binary-operator
value (ill-typed applications, which Python would raise on, evaluate to
`None`). -/
def evalExpr (Γ : String → GenProg) (env : List Val) : Expr → Val
  | .lit v => v
  | .recv i => env.getD i Val.vnone
  | .call n => Val.vgen (Γ n) []
  | .app2 f a b =>
    match evalExpr Γ env f, evalExpr Γ env a, evalExpr Γ env b with
    | .vop g, .vstr x, .vstr y => .vstr (g x y)
    | _, _, _ => .vnone
  | .pair a b => .vseq [evalExpr Γ env a, evalExpr Γ env b]

/-- Result of resuming a generator: either it yields a value and suspends
with a remaining body and environment, or it completes (Python
`StopIteration`) with a return value. -/
inductive StepRes : Type where
  | yielded : Val → GenProg → List Val → StepRes
  | stopped : Val → StepRes

/-- `g.send(x)`: push the sent value onto the received-value environment and
run the generator body to its next `yield` or `return`. -/
def genSend (Γ : String → GenProg) (p : GenProg) (env : List Val) (x : Val) :
    StepRes :=
  match p with
  | .ret e => .stopped (evalExpr Γ (x :: env) e)
  | .yld e k => .yielded (evalExpr Γ (x :: env) e) k (x :: env)

/-- Result of `expand`: a finished artifact, a raised `ValueError` message,
or fuel exhaustion (the Python loop simply has not terminated yet within the
given number of iterations). -/
inductive ExpandRes : Type where
  | ok : Val → ExpandRes
  | err : String → ExpandRes
  | fuelOut : ExpandRes

/-- `len(q) >= maxdepth`, where `maxdepth = math.inf` (`none`) never
triggers. -/
def depthHit : Option Nat → Nat → Bool
  | none, _ => false
  | some d, len => d ≤ len

/-- The `expand` loop.  The queue of incomplete symbols `q` keeps the Python
`q[-1]` (top of stack) at the list head.  Each iteration: check the depth
bound, send the current symbol `x` to the top generator; on completion pop it
and either push a returned generator (resetting `x` to `None`) or make the
return value current; on a yield, push a yielded generator (resetting `x`) or
resolve a yielded choice sequence through the stateful choice function.  One
unit of fuel is one loop iteration (the final empty-queue test also consumes
one). -/
def expandLoop {χ : Type} (Γ : String → GenProg)
    (choice : Val → χ → Val × χ) (maxd : Option Nat) :
    Nat → List (GenProg × List Val) → Val → χ → ExpandRes
  | 0, _, _, _ => .fuelOut
  | _ + 1, [], x, _ => .ok x
  | fuel + 1, g :: rest, x, c =>
    if depthHit maxd (rest.length + 1) then .err "Expansion depth exceeded"
    else
      match genSend Γ g.1 g.2 x with
      | .stopped v =>
        match v with
        | .vgen p env => expandLoop Γ choice maxd fuel ((p, env) :: rest) .vnone c
        | _ => expandLoop Γ choice maxd fuel rest v c
      | .yielded y p2 env2 =>
        match y with
        | .vgen p3 env3 =>
          expandLoop Γ choice maxd fuel ((p3, env3) :: (p2, env2) :: rest) .vnone c
        | _ =>
          let r := choice y c
          expandLoop Γ choice maxd fuel ((p2, env2) :: rest) r.1 r.2

/-- `expand(S, choice, maxdepth)`: start from the queue `[S()]` and current
symbol `None`. -/
def expand {χ : Type} (Γ : String → GenProg) (S : String)
    (choice : Val → χ → Val × χ) (maxd : Option Nat) (fuel : Nat) (c : χ) :
    ExpandRes :=
  expandLoop Γ choice maxd fuel [(Γ S, [])] Val.vnone c

/-- Non-generator test used by `expand` (`isinstance(x, abc.Generator)`
negated). -/
def Val.isGen : Val → Bool
  | .vgen _ _ => true
  | _ => false

/-- The state of a `selector` instance: the remaining codon iterator, the
seeded pseudo-random generator (modelled as a stream `Nat → Nat` plus a
cursor), and the count of consumed codons. -/
structure Selector where
  iterator : List Nat
  rngStream : Nat → Nat
  rngPos : Nat
  n : Nat

/-- `selector.__init__(codons, random)`: grab the codon iterator and seed the
fallback generator with `hash(codons)`.  `hashFn` is the hash scheme and
`scheme` maps a seed to the deterministic draw stream of `random.Random`. -/
def selInit (hashFn : List Nat → Nat) (scheme : Nat → Nat → Nat)
    (codons : List Nat) : Selector :=
  ⟨codons, scheme (hashFn codons), 0, 0⟩

/-- `selector.__call__(choices)`: consume the next codon `x` (incrementing
the consumed counter) and return `choices[x % len(choices)]`; once the
iterator is exhausted, fall back to the seeded generator's uniform choice
(advancing only the generator cursor).  An empty choice list, which Python
would raise on, returns `default`. -/
def selCall {β : Type} [Inhabited β] (sel : Selector) (choices : List β) :
    β × Selector :=
  match sel.iterator with
  | x :: rest =>
    (choices.getD (x % choices.length) default,
     ⟨rest, sel.rngStream, sel.rngPos, sel.n + 1⟩)
  | [] =>
    (choices.getD (sel.rngStream sel.rngPos % choices.length) default,
     ⟨[], sel.rngStream, sel.rngPos + 1, sel.n⟩)

/-- A sequence of selector calls on a list of choice lists, collecting the
chosen values and the final selector state. -/
def selRun {β : Type} [Inhabited β] (sel : Selector) :
    List (List β) → List β × Selector
  | [] => ([], sel)
  | cs :: css =>
    let a := selCall sel cs
    let r := selRun a.2 css
    (a.1 :: r.1, r.2)

/-- Modelled from the spec: the specified choice sequence of a selector over
codon sequence `codons` with fallback draw stream `stream` — while codons
remain, the `i`-th call returns `choices_i[codons_i mod len]` independently
of the stream; afterwards every call is resolved by successive stream draws
only. -/
def selSpec {β : Type} [Inhabited β] :
    List Nat → (Nat → Nat) → List (List β) → List β
  | _, _, [] => []
  | c :: cr, stream, cs :: csr =>
    cs.getD (c % cs.length) default :: selSpec cr stream csr
  | [], stream, cs :: csr =>
    cs.getD (stream 0 % cs.length) default ::
      selSpec [] (fun i => stream (i + 1)) csr

/-- The selector as the choice function `expand` consumes: yielded choice
values are Python sequences (`vseq`); anything else (which Python would raise
on) resolves to `None`. -/
def selChoice (x : Val) (sel : Selector) : Val × Selector :=
  match x with
  | .vseq l => selCall sel l
  | _ => (Val.vnone, sel)

/-- Grammatical expansion end to end: expand start symbol `S` of grammar `Γ`
with a fresh selector built from `codons`. -/
def expandGE (hashFn : List Nat → Nat) (scheme : Nat → Nat → Nat)
    (Γ : String → GenProg) (S : String) (maxd : Option Nat) (fuel : Nat)
    (codons : List Nat) : ExpandRes :=
  expand Γ S selChoice maxd fuel (selInit hashFn scheme codons)

/-- A codon container as passed to `selector.__init__`: a Python tuple
(hashable) or a Python list (unhashable). -/
inductive PyCodons : Type where
  | tuple : List Nat → PyCodons
  | list : List Nat → PyCodons

/-- Python `hash` on a codon container: defined for tuples, raises
`TypeError` for lists. -/
def pyHash (hashFn : List Nat → Nat) : PyCodons → Except String Nat
  | .tuple cs => .ok (hashFn cs)
  | .list _ => .error "unhashable type: list"

/-- The underlying integer sequence of a codon container. -/
def PyCodons.toList : PyCodons → List Nat
  | .tuple cs => cs
  | .list cs => cs

/-- `selector.__init__` including the `hash(codons)` call on the raw
container: construction fails with the `TypeError` of `hash` before any
selection can be made. -/
def selInitChecked (hashFn : List Nat → Nat) (scheme : Nat → Nat → Nat)
    (pc : PyCodons) : Except String Selector :=
  match pyHash hashFn pc with
  | .error e => .error e
  | .ok h => .ok ⟨pc.toList, scheme h, 0, 0⟩

/-- The four binary operators of the bundled arithmetic grammar. -/
def addOp : String → String → String := fun a b => "(" ++ a ++ " + " ++ b ++ ")"

/-- Subtraction operator of the arithmetic grammar. -/
def subOp : String → String → String := fun a b => "(" ++ a ++ " - " ++ b ++ ")"

/-- Multiplication operator of the arithmetic grammar. -/
def mulOp : String → String → String := fun a b => "(" ++ a ++ " * " ++ b ++ ")"

/-- Division operator of the arithmetic grammar. -/
def divOp : String → String → String := fun a b => "(" ++ a ++ " / " ++ b ++ ")"

/-- The bundled `arithmetic` grammar over variables `x0 x1 x2` and the four
binary operators:
`var` yields the variable choices and returns the chosen one; `binary`
yields the operator choices, then two nested `exp` expansions, and returns
the operator applied to both results; `exp` yields the two-element choice
sequence `(binary(), var())` and returns the chosen generator. -/
def arithG : String → GenProg := fun n =>
  if n = "var" then
    .yld (.lit (.vseq [.vstr "x0", .vstr "x1", .vstr "x2"])) (.ret (.recv 0))
  else if n = "binary" then
    .yld (.lit (.vseq [.vop addOp, .vop subOp, .vop mulOp, .vop divOp]))
      (.yld (.call "exp")
        (.yld (.call "exp")
          (.ret (.app2 (.recv 2) (.recv 1) (.recv 0)))))
  else if n = "exp" then
    .yld (.pair (.call "binary") (.call "var")) (.ret (.recv 0))
  else .ret (.lit .vnone)

/-- A trivial stateless choice function (echoes the yielded value), used to
instantiate depth-bound theorems at concrete inputs. -/
def echoChoice (x : Val) (c : Unit) : Val × Unit := (x, c)

/-- A concrete deterministic random source used to instantiate theorems:
every raw index draw is `0` and every `random.random()` draw is `0` (so a
crossover rate of `1` always fires). -/
def zeroRand : RandSrc Nat := ⟨fun s => (0, s), fun s => (0, s)⟩

/-- Concrete `evolve` run for the capacity counterexample: population
`[0, 1]`, identity fitness, fresh-individual mutation (`x + 1000`),
fresh-individual crossover (`x + 100`), elite `0`, rate `1`, binary
tournament selection, `remember = 0` (so the retention capacity is the
population size `2`). -/
def c1Snap (k : Nat) : List Nat × List (Nat × Int) :=
  evolveSnapshot [0, 1] Int.ofNat (fun x s => (x + 1000, s)) 0 (1 : Rat)
    (fun a _ s => (a + 100, s)) (tournament 2) zeroRand 0 0 k

/-- A nonterminal that always recurses into itself: every resume first
requests a nested fresh expansion of the same nonterminal
(`def S(): return (yield S())`). -/
def selfRecG : String → GenProg :=
  fun _ => GenProg.yld (Expr.call "S") (GenProg.ret (Expr.recv 0))

/-- A grammar whose start symbol immediately completes with the plain string
value "a", making no choice or nested-expansion request. -/
def trivialG : String → GenProg :=
  fun _ => GenProg.ret (Expr.lit (Val.vstr "a"))

/- ------------------------------------------------------------------ -/
/- Helper lemmas about the engine embeddings.                          -/
/- ------------------------------------------------------------------ -/

lemma trim_length_le (r : Nat) : ∀ c : List (α × Int), (trim r c).length ≤ r := by
  intro c
  induction c with
  | nil => simp [trim]
  | cons p t ih =>
    simp only [trim]
    split
    · next h => exact h
    · exact ih

lemma pyChoices_length (R : RandSrc σ) (pop : List α) :
    ∀ (k : Nat) (s : σ), ((pyChoices R pop k s).1).length = k := by
  intro k
  induction k with
  | zero => intro s; rfl
  | succ k ih => intro s; simp [pyChoices, ih]

lemma accessAll_fst_length :
    ∀ (xs : List α) (c : List (α × Int)), ((accessAll c xs).1).length = xs.length := by
  intro xs
  induction xs with
  | nil => intro c; rfl
  | cons x t ih => intro c; simp [accessAll, ih]

lemma insertPair_length (p : Int × α) :
    ∀ l : List (Int × α), (insertPair p l).length = l.length + 1 := by
  intro l
  induction l with
  | nil => rfl
  | cons q t ih =>
    simp only [insertPair]
    split
    · rfl
    · simp [ih]

lemma sortPairs_length : ∀ l : List (Int × α), (sortPairs l).length = l.length := by
  intro l
  induction l with
  | nil => rfl
  | cons p t ih => simp [sortPairs, insertPair_length, ih]

lemma pySortByAccess_length (c : List (α × Int)) (pop : List α) :
    ((pySortByAccess c pop).1).length = pop.length := by
  simp [pySortByAccess, sortPairs_length, accessAll_fst_length]

lemma tournLoop_fst_length (tk : Nat) (R : RandSrc σ) (pop : List α) :
    ∀ (n : Nat) (c : List (α × Int)) (s : σ),
      ((tournLoop tk R pop n c s).1).length = n := by
  intro n
  induction n with
  | zero => intro c s; rfl
  | succ n ih => intro c s; simp [tournLoop, ih]

lemma tournament_fst_length (tk : Nat) (pop : List α) (cache : List (α × Int))
    (elite : Nat) (R : RandSrc σ) (s : σ) :
    ((tournament tk pop cache elite R s).1).length =
      min elite pop.length + (pop.length - elite) := by
  simp [tournament, tournLoop_fst_length]

lemma breedLoop_fst_length (pop : List α) (crossover : α → α → σ → α × σ)
    (rate : Rat) (R : RandSrc σ) :
    ∀ (ms : List α) (s : σ), ((breedLoop pop crossover rate R ms s).1).length = ms.length := by
  intro ms
  induction ms with
  | nil => intro s; rfl
  | cons m t ih =>
    intro s
    simp only [breedLoop]
    split
    · simp [ih]
    · simp [ih]

lemma breeding_fst_length (pop : List α) (crossover : α → α → σ → α × σ)
    (rate : Rat) (elite : Nat) (R : RandSrc σ) (s : σ) :
    ((breeding pop crossover rate elite R s).1).length =
      min elite pop.length + (pop.length - elite) := by
  simp [breeding, breedLoop_fst_length, pyChoices_length]

lemma mutLoop_fst_length (mutate : α → σ → α × σ) :
    ∀ (ms : List α) (s : σ), ((mutLoop mutate ms s).1).length = ms.length := by
  intro ms
  induction ms with
  | nil => intro s; rfl
  | cons m t ih => intro s; simp [mutLoop, ih]

lemma mutation_fst_length (pop : List α) (mutate : α → σ → α × σ)
    (elite : Nat) (R : RandSrc σ) (s : σ) :
    ((mutation pop mutate elite R s).1).length =
      min elite pop.length + (pop.length - elite) := by
  simp [mutation, mutLoop_fst_length, pyChoices_length]

lemma stepPre_pop_length (f : α → Int) (st : EvoState α σ) :
    ((stepPre f st).pop).length = st.pop.length := by
  simp [stepPre, pySortByAccess_length]

lemma stepPost_tournament_pop_length (f : α → Int) (mutate : α → σ → α × σ)
    (tk elite : Nat) (rate : Rat) (crossover : α → α → σ → α × σ)
    (R : RandSrc σ) (rem : Nat) (st : EvoState α σ)
    (h : elite ≤ st.pop.length) :
    ((stepPost f mutate elite rate crossover (tournament tk) R rem st).pop).length =
      st.pop.length := by
  simp only [stepPost]
  rw [mutation_fst_length, pySortByAccess_length, breeding_fst_length,
    tournament_fst_length]
  omega

/- ------------------------------------------------------------------ -/
/- Claim theorems.                                                     -/
/- ------------------------------------------------------------------ -/

/-- C1 (counterexample).  The claim that after every bulk fitness update the
cache holds at most `max(remember, initial population size)` entries fails at
the second yielded snapshot of a concrete run: with initial population
`[0, 1]` and `remember = 0` the capacity is `2`, yet the cache yielded at
generation `1` holds `3` entries — the first bulk update of each iteration
happens after the previous iteration's trims and before any new trim, so the
yield point sees an over-capacity cache. -/
theorem c1_snapshot_cache_exceeds_capacity :
    ((c1Snap 1).2).length = 3 ∧ ¬ ((c1Snap 1).2).length ≤ max 0 [0, 1].length := by
  constructor
  · decide
  · decide

/-- C1 (amended).  The retention bound `max(remember, initial population
size)` does hold at every loop-iteration boundary (immediately after the
second trim, which is the last cache operation of the loop body), for every
fitness function, strategy set and random source; it is only the yield-time
snapshot, taken after an untrimmed bulk update, that can exceed it. -/
theorem c1_cache_bounded_at_iteration_boundary :
    ∀ (pop0 : List α) (f : α → Int) (mutate : α → σ → α × σ) (elite : Nat)
      (rate : Rat) (crossover : α → α → σ → α × σ)
      (selection : List α → List (α × Int) → Nat → RandSrc σ → σ →
        List α × List (α × Int) × σ)
      (R : RandSrc σ) (remember : Nat) (s0 : σ) (k : Nat),
      ((evolveState pop0 f mutate elite rate crossover selection R remember s0 k).cache).length ≤
        max remember pop0.length := by
  intro pop0 f mutate elite rate crossover selection R remember s0 k
  cases k with
  | zero => simp [evolveState]
  | succ k =>
    show ((stepPost f mutate elite rate crossover selection R
      (max remember pop0.length) (stepPre f
        (evolveState pop0 f mutate elite rate crossover selection R remember s0 k))).cache).length ≤ _
    simp only [stepPost]
    exact trim_length_le _ _

/-- C2.  `evolve` validates `elite < len(population)` before producing any
output: with `elite ≥ len(population)` it fails with the `ValueError`
"Elite count must be lower than population count" and yields nothing, and
with `elite < len(population)` it returns the (total) stream of generation
snapshots, whose first element is the first generation. -/
theorem c2_evolve_elite_precondition :
    ∀ (pop0 : List α) (f : α → Int) (mutate : α → σ → α × σ) (elite : Nat)
      (rate : Rat) (crossover : α → α → σ → α × σ)
      (selection : List α → List (α × Int) → Nat → RandSrc σ → σ →
        List α × List (α × Int) × σ)
      (R : RandSrc σ) (remember : Nat) (s0 : σ),
      (pop0.length ≤ elite →
        evolve pop0 f mutate elite rate crossover selection R remember s0 =
          Except.error "Elite count must be lower than population count") ∧
      (elite < pop0.length →
        evolve pop0 f mutate elite rate crossover selection R remember s0 =
          Except.ok
            (evolveSnapshot pop0 f mutate elite rate crossover selection R remember s0)) := by
  intro pop0 f mutate elite rate crossover selection R remember s0
  constructor
  · intro h
    simp [evolve, h]
  · intro h
    simp [evolve, Nat.not_le.mpr h]

/-- C2 (witness): both branches of the precondition at concrete inputs —
`elite = 5` on a two-member population fails, `elite = 1` succeeds. -/
theorem c2_evolve_elite_precondition_witness :
    (([1, 2] : List Nat).length ≤ 5 →
      evolve [1, 2] Int.ofNat (fun x s => (x, s)) 5 (0 : Rat)
        (fun a _ s => (a, s)) (tournament 2) zeroRand 0 0 =
        Except.error "Elite count must be lower than population count") ∧
    (([1, 2] : List Nat).length ≤ 5) ∧
    (evolve [1, 2] Int.ofNat (fun x s => (x, s)) 5 (0 : Rat)
        (fun a _ s => (a, s)) (tournament 2) zeroRand 0 0 =
      Except.error "Elite count must be lower than population count") ∧
    ((1 : Nat) < ([1, 2] : List Nat).length) ∧
    (evolve [1, 2] Int.ofNat (fun x s => (x, s)) 1 (0 : Rat)
        (fun a _ s => (a, s)) (tournament 2) zeroRand 0 0 =
      Except.ok
        (evolveSnapshot [1, 2] Int.ofNat (fun x s => (x, s)) 1 (0 : Rat)
          (fun a _ s => (a, s)) (tournament 2) zeroRand 0 0)) := by
  refine ⟨?_, by decide, ?_, by decide, ?_⟩
  · exact (c2_evolve_elite_precondition [1, 2] Int.ofNat (fun x s => (x, s)) 5 (0 : Rat)
      (fun a _ s => (a, s)) (tournament 2) zeroRand 0 0).1
  · exact (c2_evolve_elite_precondition [1, 2] Int.ofNat (fun x s => (x, s)) 5 (0 : Rat)
      (fun a _ s => (a, s)) (tournament 2) zeroRand 0 0).1 (by decide)
  · exact (c2_evolve_elite_precondition [1, 2] Int.ofNat (fun x s => (x, s)) 1 (0 : Rat)
      (fun a _ s => (a, s)) (tournament 2) zeroRand 0 0).2 (by decide)

/-- C6 (counterexample).  The claim that, when the per-slot coin fails, a
non-elite slot keeps its current (post-selection) occupant is false: with
population `[10, 20]`, `elite = 0`, `rate = 0` (every coin fails, so no
crossover happens) and a random source whose index draws are all `0`,
breeding returns `[10, 10]` — slot `1` holds a freshly resampled member,
not its prior occupant `20`. -/
theorem c6_breeding_slot_not_positional :
    (breeding [10, 20] (fun a _ s => (a + 1, s)) (0 : Rat) 0
        (⟨fun s => (0, s), fun s => (1, s)⟩ : RandSrc Nat) 0).1 = [10, 10] ∧
    ([10, 10] : List Nat) ≠ [10, 20] := by
  constructor
  · decide
  · decide

lemma getD_append_offset :
    ∀ (l1 l2 : List α) (i : Nat) (d : α),
      (l1 ++ l2).getD (l1.length + i) d = l2.getD i d := by
  intro l1
  induction l1 with
  | nil => intro l2 i d; simp
  | cons a t ih =>
    intro l2 i d
    have harith : (a :: t).length + i = (t.length + i) + 1 := by
      simp only [List.length_cons]
      omega
    rw [harith]
    show (t ++ l2).getD (t.length + i) d = l2.getD i d
    exact ih l2 i d

/-- Slot-wise characterisation of the breeding loop: non-elite slot `i`
holds its freshly sampled member when the slot's coin draw fails, and the
crossover of that member with a partner drawn from the population when the
coin fires, where all draws happen at the explicitly threaded slot state. -/
lemma breedLoop_getD (pop : List α) (crossover : α → α → σ → α × σ)
    (rate : Rat) (R : RandSrc σ) :
    ∀ (ms : List α) (s : σ) (i : Nat), i < ms.length →
      ((breedLoop pop crossover rate R ms s).1).getD i default =
        if (R.nextRand (breedStateAt pop crossover rate R ms s i)).1 < rate then
          (crossover (ms.getD i default)
            (pyChoice R pop (R.nextRand (breedStateAt pop crossover rate R ms s i)).2).1
            (pyChoice R pop (R.nextRand (breedStateAt pop crossover rate R ms s i)).2).2).1
        else ms.getD i default := by
  intro ms
  induction ms with
  | nil => intro s i h; simp at h
  | cons m t ih =>
    intro s i h
    cases i with
    | zero =>
      by_cases hc : (R.nextRand s).1 < rate
      · simp [breedLoop, breedStateAt, hc]
      · simp [breedLoop, breedStateAt, hc]
    | succ i =>
      have h2 : i < t.length := by
        simp only [List.length_cons] at h
        omega
      by_cases hc : (R.nextRand s).1 < rate
      · have hstate : breedStateAt pop crossover rate R (m :: t) s (i + 1) =
            breedStateAt pop crossover rate R t
              (crossover m (pyChoice R pop (R.nextRand s).2).1
                (pyChoice R pop (R.nextRand s).2).2).2 i := by
          simp [breedStateAt, hc]
        rw [hstate]
        simp only [breedLoop, hc, if_pos]
        show ((breedLoop pop crossover rate R t
            (crossover m (pyChoice R pop (R.nextRand s).2).1
              (pyChoice R pop (R.nextRand s).2).2).2).1).getD i default = _
        rw [ih _ i h2]
        rfl
      · have hstate : breedStateAt pop crossover rate R (m :: t) s (i + 1) =
            breedStateAt pop crossover rate R t (R.nextRand s).2 i := by
          simp [breedStateAt, hc]
        rw [hstate]
        simp only [breedLoop, hc, if_neg, not_false_iff]
        show ((breedLoop pop crossover rate R t (R.nextRand s).2).1).getD i default = _
        rw [ih _ i h2]
        rfl

/-- C6 (amended).  In the crossover step, elites pass through unchanged,
and each non-elite slot `i` is filled with a member freshly resampled
(uniformly, with replacement) from the post-selection population `breeding`
receives — not with the slot's prior occupant.  When the slot's coin draw
fires (`random.random() < rate`), the slot is replaced by the crossover of
that resampled member with one partner drawn uniformly with replacement
from the same post-selection population; when the coin fails, the slot
holds the resampled member unchanged. -/
theorem c6_breeding_resamples_slots :
    ∀ (pop : List α) (crossover : α → α → σ → α × σ) (rate : Rat)
      (elite : Nat) (R : RandSrc σ) (s : σ),
      ((breeding pop crossover rate elite R s).1).take (min elite pop.length) =
        pop.take elite ∧
      (∀ i, i < pop.length - elite →
        ((breeding pop crossover rate elite R s).1).getD
            (min elite pop.length + i) default =
          if (R.nextRand (slotState pop crossover rate elite R s i)).1 < rate then
            (crossover ((slotMembers pop elite R s).getD i default)
              (pyChoice R pop
                (R.nextRand (slotState pop crossover rate elite R s i)).2).1
              (pyChoice R pop
                (R.nextRand (slotState pop crossover rate elite R s i)).2).2).1
          else (slotMembers pop elite R s).getD i default) := by
  intro pop crossover rate elite R s
  constructor
  · show ((pop.take elite ++
        (breedLoop pop crossover rate R (pyChoices R pop (pop.length - elite) s).1
          (pyChoices R pop (pop.length - elite) s).2).1).take (min elite pop.length)) =
      pop.take elite
    have hlen : min elite pop.length = (pop.take elite).length :=
      (List.length_take elite pop).symm
    rw [hlen]
    exact List.take_left _ _
  · intro i hi
    show ((pop.take elite ++
        (breedLoop pop crossover rate R (pyChoices R pop (pop.length - elite) s).1
          (pyChoices R pop (pop.length - elite) s).2).1).getD
        (min elite pop.length + i) default) = _
    have hlen : min elite pop.length = (pop.take elite).length :=
      (List.length_take elite pop).symm
    rw [hlen, getD_append_offset]
    have hmlen : i < ((pyChoices R pop (pop.length - elite) s).1).length := by
      rw [pyChoices_length]
      exact hi
    rw [breedLoop_getD pop crossover rate R _ _ i hmlen]
    rfl

/-- C6 (witness for the amended theorem): a concrete run whose coin always
fires (`rate = 1`, draw `0`), so the non-elite slot is decided by the
crossover of the resampled member with its sampled partner. -/
theorem c6_breeding_resamples_slots_witness :
    ((0 : Nat) < ([10, 20] : List Nat).length - 1) ∧
    (((breeding [10, 20] (fun a b s => (a + b, s)) (1 : Rat) 1 zeroRand 0).1).take
        (min 1 ([10, 20] : List Nat).length) = ([10, 20] : List Nat).take 1) ∧
    (((breeding [10, 20] (fun a b s => (a + b, s)) (1 : Rat) 1 zeroRand 0).1).getD
        (min 1 ([10, 20] : List Nat).length + 0) default =
      if (zeroRand.nextRand
            (slotState [10, 20] (fun a b s => (a + b, s)) (1 : Rat) 1 zeroRand 0 0)).1 <
          (1 : Rat) then
        ((fun a b s => (a + b, s)) ((slotMembers [10, 20] 1 zeroRand 0).getD 0 default)
          (pyChoice zeroRand [10, 20]
            (zeroRand.nextRand
              (slotState [10, 20] (fun a b s => (a + b, s)) (1 : Rat) 1 zeroRand 0 0)).2).1
          (pyChoice zeroRand [10, 20]
            (zeroRand.nextRand
              (slotState [10, 20] (fun a b s => (a + b, s)) (1 : Rat) 1 zeroRand 0 0)).2).2).1
      else (slotMembers [10, 20] 1 zeroRand 0).getD 0 default) := by
  refine ⟨by decide, ?_, ?_⟩
  · exact (c6_breeding_resamples_slots [10, 20] (fun a b s => (a + b, s)) (1 : Rat) 1
      zeroRand 0).1
  · exact (c6_breeding_resamples_slots [10, 20] (fun a b s => (a + b, s)) (1 : Rat) 1
      zeroRand 0).2 0 (by decide)

lemma getVal_append_left {c d : List (α × Int)} {k : α} {v : Int}
    (h : getVal c k = some v) : getVal (c ++ d) k = some v := by
  induction c with
  | nil => exact Option.noConfusion h
  | cons p t ih =>
    simp only [getVal] at h
    show getVal (p :: (t ++ d)) k = some v
    simp only [getVal]
    split at h
    · next hp => rw [if_pos hp]; exact h
    · next hp => rw [if_neg hp]; exact ih h

lemma getVal_append_right {c : List (α × Int)} {k : α}
    (h : getVal c k = none) (d : List (α × Int)) :
    getVal (c ++ d) k = getVal d k := by
  induction c with
  | nil => rfl
  | cons p t ih =>
    simp only [getVal] at h
    show getVal (p :: (t ++ d)) k = getVal d k
    simp only [getVal]
    split at h
    · exact Option.noConfusion h
    · next hp => rw [if_neg hp]; exact ih h

lemma memKey_false_iff {c : List (α × Int)} {k : α} :
    memKey c k = false ↔ getVal c k = none := by
  cases h : getVal c k <;> simp [memKey, h]

lemma memKey_true_iff {c : List (α × Int)} {k : α} :
    memKey c k = true ↔ ∃ v, getVal c k = some v := by
  cases h : getVal c k <;> simp [memKey, h]

lemma memKey_append_false_left {c d : List (α × Int)} {k : α}
    (h : memKey (c ++ d) k = false) : memKey c k = false := by
  rw [memKey_false_iff] at h ⊢
  cases hg : getVal c k with
  | none => rfl
  | some v => rw [getVal_append_left hg] at h; cases h

lemma memKey_append_singleton (c : List (α × Int)) (k : α) (v : Int) :
    memKey (c ++ [(k, v)]) k = true := by
  rw [memKey_true_iff]
  cases hg : getVal c k with
  | none => exact ⟨v, by rw [getVal_append_right hg]; simp [getVal]⟩
  | some w => exact ⟨w, getVal_append_left hg⟩

lemma findUncached_skip {c : List (α × Int)} :
    ∀ (pre l : List α), (∀ z ∈ pre, memKey c z = true) →
      findUncached c (pre ++ l) = findUncached c l := by
  intro pre
  induction pre with
  | nil => intro l _; rfl
  | cons z t ih =>
    intro l h
    have hz : memKey c z = true := h z (by simp)
    simp only [List.cons_append, findUncached, hz, if_true]
    exact ih l (fun w hw => h w (by simp [hw]))

lemma dictInsert_not_mem {c : List (α × Int)} {k : α} (v : Int)
    (h : memKey c k = false) : dictInsert c k v = c ++ [(k, v)] := by
  simp [dictInsert, h]

/-- Alignment of the two lazily interleaved generator cursors of the bulk
fitness update: as long as every element of `cur2` that precedes the shared
suffix `cur1` is already cached, the interleaved update agrees with the
single-cursor reference semantics — in particular, each inserted key is
paired with its own fitness value. -/
lemma cacheUpdateZip_eq_simple (f : α → Int) :
    ∀ (cur1 pre : List α) (c : List (α × Int)),
      (∀ z ∈ pre, memKey c z = true) →
      cacheUpdateZip f c cur1 (pre ++ cur1) = cacheUpdateSimple f c cur1 := by
  intro cur1
  induction cur1 with
  | nil => intro pre c _; rfl
  | cons x xs ih =>
    intro pre c h
    cases hmem : memKey c x with
    | true =>
      simp only [cacheUpdateZip, cacheUpdateSimple, hmem, if_true]
      have hr : pre ++ x :: xs = (pre ++ [x]) ++ xs := by simp
      rw [hr]
      refine ih (pre ++ [x]) c ?_
      intro z hz
      rcases List.mem_append.mp hz with hz | hz
      · exact h z hz
      · simp at hz; subst hz; exact hmem
    | false =>
      have hfind : findUncached c (pre ++ x :: xs) = some (x, xs) := by
        rw [findUncached_skip pre (x :: xs) h]
        simp [findUncached, hmem]
      simp only [cacheUpdateZip, cacheUpdateSimple, hmem, if_false, Bool.false_eq_true]
      rw [hfind]
      simp only []
      rw [dictInsert_not_mem (f x) hmem]
      have := ih [] (c ++ [(x, f x)]) (by simp)
      simp only [List.nil_append] at this
      rw [this]

/-- The single-cursor bulk update appends exactly one entry per distinct
previously uncached element of the population, in order, each carrying its
own fitness value; the invocation counter equals the number of appended
entries. -/
lemma cacheUpdateSimple_append (f : α → Int) :
    ∀ (l : List α) (c : List (α × Int)),
      ∃ news : List (α × Int),
        cacheUpdateSimple f c l = (c ++ news, news.length) ∧
        ((news.map Prod.fst).Nodup) ∧
        (∀ p ∈ news, p.2 = f p.1 ∧ memKey c p.1 = false ∧ p.1 ∈ l) := by
  intro l
  induction l with
  | nil =>
    intro c
    exact ⟨[], by simp [cacheUpdateSimple], by simp, by simp⟩
  | cons x xs ih =>
    intro c
    cases hmem : memKey c x with
    | true =>
      obtain ⟨news, h1, h2, h3⟩ := ih c
      refine ⟨news, ?_, h2, ?_⟩
      · simp [cacheUpdateSimple, hmem, h1]
      · intro p hp
        exact ⟨(h3 p hp).1, (h3 p hp).2.1, List.mem_cons_of_mem _ (h3 p hp).2.2⟩
    | false =>
      obtain ⟨news, h1, h2, h3⟩ := ih (c ++ [(x, f x)])
      refine ⟨(x, f x) :: news, ?_, ?_, ?_⟩
      · simp only [cacheUpdateSimple, hmem, if_false, Bool.false_eq_true, h1]
        simp [List.append_assoc]
      · rw [List.map_cons, List.nodup_cons]
        refine ⟨?_, h2⟩
        intro hx
        obtain ⟨p, hp, hpx⟩ := List.mem_map.mp hx
        have := (h3 p hp).2.1
        rw [hpx] at this
        rw [memKey_append_singleton] at this
        cases this
      · intro p hp
        rcases List.mem_cons.mp hp with hp | hp
        · subst hp
          exact ⟨rfl, hmem, by simp⟩
        · exact ⟨(h3 p hp).1, memKey_append_false_left (h3 p hp).2.1,
            List.mem_cons_of_mem _ (h3 p hp).2.2⟩

/-- After the single-cursor bulk update, every population member has its own
fitness value in the cache, and the cache remains consistent with the
fitness function. -/
lemma cacheUpdateSimple_covers (f : α → Int) :
    ∀ (l : List α) (c : List (α × Int)),
      (∀ x v, getVal c x = some v → v = f x) →
      (∀ x ∈ l, getVal (cacheUpdateSimple f c l).1 x = some (f x)) ∧
      (∀ x v, getVal (cacheUpdateSimple f c l).1 x = some v → v = f x) := by
  intro l
  induction l with
  | nil =>
    intro c hc
    exact ⟨by simp, by simpa [cacheUpdateSimple] using hc⟩
  | cons y ys ih =>
    intro c hc
    cases hmem : memKey c y with
    | true =>
      have r := ih c hc
      have hred : (cacheUpdateSimple f c (y :: ys)).1 = (cacheUpdateSimple f c ys).1 := by
        simp [cacheUpdateSimple, hmem]
      constructor
      · intro x hx
        rcases List.mem_cons.mp hx with hx | hx
        · subst hx
          obtain ⟨v, hv⟩ := memKey_true_iff.mp hmem
          have hvf : v = f x := hc x v hv
          obtain ⟨news, h1, -, -⟩ := cacheUpdateSimple_append f ys c
          rw [hred, h1]
          rw [getVal_append_left hv, hvf]
        · rw [hred]; exact r.1 x hx
      · intro x v h
        rw [hred] at h
        exact r.2 x v h
    | false =>
      have hgy : getVal c y = none := memKey_false_iff.mp hmem
      have hc2 : ∀ x v, getVal (c ++ [(y, f y)]) x = some v → v = f x := by
        intro x v h
        cases hg : getVal c x with
        | some w =>
          rw [getVal_append_left hg] at h
          have hw := Option.some.inj h
          rw [← hw]
          exact hc x w hg
        | none =>
          rw [getVal_append_right hg] at h
          simp only [getVal] at h
          split at h
          · next hyx => cases h; subst hyx; rfl
          · cases h
      have r := ih (c ++ [(y, f y)]) hc2
      have hred : (cacheUpdateSimple f c (y :: ys)).1 =
          (cacheUpdateSimple f (c ++ [(y, f y)]) ys).1 := by
        simp [cacheUpdateSimple, hmem]
      constructor
      · intro x hx
        rcases List.mem_cons.mp hx with hx | hx
        · subst hx
          have hv : getVal (c ++ [(x, f x)]) x = some (f x) := by
            rw [getVal_append_right hgy]
            simp [getVal]
          obtain ⟨news, h1, -, -⟩ := cacheUpdateSimple_append f ys (c ++ [(x, f x)])
          rw [hred, h1]
          exact getVal_append_left hv
        · rw [hred]; exact r.1 x hx
      · intro x v h
        rw [hred] at h
        exact r.2 x v h

/-- C9.  In each bulk fitness update of `evolve`, even in the presence of
duplicated individuals, the two lazily interleaved generators filtering on
membership in the mutating cache stay aligned: the interleaved update equals
the single-cursor reference update, each distinct previously uncached
individual contributes exactly one new entry `(x, fitness x)` (so `fitness`
is invoked once per such individual — the invocation count equals the number
of new, key-distinct entries), and afterwards the cache holds `fitness x`
for every member of the population. -/
theorem c9_cache_update_generators_aligned :
    ∀ (f : α → Int) (cache : List (α × Int)) (pop : List α),
      (∀ x v, getVal cache x = some v → v = f x) →
      cacheUpdate f cache pop = cacheUpdateSimple f cache pop ∧
      (∀ x ∈ pop, getVal (cacheUpdate f cache pop).1 x = some (f x)) ∧
      (∀ x v, getVal (cacheUpdate f cache pop).1 x = some v → v = f x) ∧
      ∃ news : List (α × Int),
        (cacheUpdate f cache pop).1 = cache ++ news ∧
        (cacheUpdate f cache pop).2 = news.length ∧
        ((news.map Prod.fst).Nodup) ∧
        ∀ p ∈ news, p.2 = f p.1 ∧ memKey cache p.1 = false ∧ p.1 ∈ pop := by
  intro f cache pop hc
  have halign : cacheUpdate f cache pop = cacheUpdateSimple f cache pop := by
    have := cacheUpdateZip_eq_simple f pop [] cache (by simp)
    simpa [cacheUpdate] using this
  obtain ⟨news, h1, h2, h3⟩ := cacheUpdateSimple_append f pop cache
  have hcov := cacheUpdateSimple_covers f pop cache hc
  refine ⟨halign, ?_, ?_, news, ?_, ?_, h2, h3⟩
  · intro x hx; rw [halign]; exact hcov.1 x hx
  · intro x v h; rw [halign] at h; exact hcov.2 x v h
  · rw [halign, h1]
  · rw [halign, h1]

/-- C9 (witness): empty initial cache (trivially consistent), population
`[0, 0, 1]` with identity fitness — the duplicate `0` is evaluated once. -/
theorem c9_cache_update_generators_aligned_witness :
    (∀ x v, getVal ([] : List (Nat × Int)) x = some v → v = Int.ofNat x) ∧
    (cacheUpdate Int.ofNat [] [0, 0, 1] = cacheUpdateSimple Int.ofNat [] [0, 0, 1] ∧
      (∀ x ∈ [0, 0, 1], getVal (cacheUpdate Int.ofNat [] [0, 0, 1]).1 x = some (Int.ofNat x)) ∧
      (∀ x v, getVal (cacheUpdate Int.ofNat [] [0, 0, 1]).1 x = some v → v = Int.ofNat x) ∧
      ∃ news : List (Nat × Int),
        (cacheUpdate Int.ofNat [] [0, 0, 1]).1 = [] ++ news ∧
        (cacheUpdate Int.ofNat [] [0, 0, 1]).2 = news.length ∧
        ((news.map Prod.fst).Nodup) ∧
        ∀ p ∈ news, p.2 = Int.ofNat p.1 ∧ memKey [] p.1 = false ∧ p.1 ∈ [0, 0, 1]) := by
  have hc : ∀ x v, getVal ([] : List (Nat × Int)) x = some v → v = Int.ofNat x := by
    intro x v h
    cases h
  exact ⟨hc, c9_cache_update_generators_aligned Int.ofNat [] [0, 0, 1] hc⟩

/-- C8.  For every run of `evolve` that uses the built-in tournament
selection together with the built-in breeding and mutation steps (any
tournament size, fitness, crossover, mutation and random source), every
yielded population has the same length as the initial population. -/
theorem c8_population_length_invariant :
    ∀ (pop0 : List α) (f : α → Int) (mutate : α → σ → α × σ) (tk elite : Nat)
      (rate : Rat) (crossover : α → α → σ → α × σ) (R : RandSrc σ)
      (remember : Nat) (s0 : σ) (g : Nat → List α × List (α × Int)),
      evolve pop0 f mutate elite rate crossover (tournament tk) R remember s0 =
        Except.ok g →
      ∀ k, ((g k).1).length = pop0.length := by
  intro pop0 f mutate tk elite rate crossover R remember s0 g hg k
  by_cases hc : pop0.length ≤ elite
  · simp [evolve, hc] at hg
  · have hgs : g = evolveSnapshot pop0 f mutate elite rate crossover (tournament tk) R remember s0 := by
      simp [evolve, hc] at hg
      exact hg.symm
    have hstate : ∀ j,
        ((evolveState pop0 f mutate elite rate crossover (tournament tk) R remember s0 j).pop).length =
          pop0.length := by
      intro j
      induction j with
      | zero => rfl
      | succ j ih =>
        show ((stepPost f mutate elite rate crossover (tournament tk) R
          (max remember pop0.length) (stepPre f
            (evolveState pop0 f mutate elite rate crossover (tournament tk) R remember s0 j))).pop).length = _
        rw [stepPost_tournament_pop_length]
        · rw [stepPre_pop_length, ih]
        · rw [stepPre_pop_length, ih]
          omega
    rw [hgs]
    show ((stepPre f
      (evolveState pop0 f mutate elite rate crossover (tournament tk) R remember s0 k)).pop).length = _
    rw [stepPre_pop_length, hstate]

/-- C8 (witness): a concrete two-member run with `elite = 1`; the populations
yielded at generations `0` and `2` both have length `2`. -/
theorem c8_population_length_invariant_witness :
    (evolve [5, 3] Int.ofNat (fun x s => (x + 1, s)) 1 (1 : Rat)
        (fun a b s => (a + b, s)) (tournament 2) zeroRand 0 0 =
      Except.ok
        (evolveSnapshot [5, 3] Int.ofNat (fun x s => (x + 1, s)) 1 (1 : Rat)
          (fun a b s => (a + b, s)) (tournament 2) zeroRand 0 0)) ∧
    ((evolveSnapshot [5, 3] Int.ofNat (fun x s => (x + 1, s)) 1 (1 : Rat)
        (fun a b s => (a + b, s)) (tournament 2) zeroRand 0 0 2).1).length =
      ([5, 3] : List Nat).length := by
  constructor
  · rfl
  · exact c8_population_length_invariant [5, 3] Int.ofNat (fun x s => (x + 1, s)) 2 1 (1 : Rat)
      (fun a b s => (a + b, s)) zeroRand 0 0
      (evolveSnapshot [5, 3] Int.ofNat (fun x s => (x + 1, s)) 1 (1 : Rat)
        (fun a b s => (a + b, s)) (tournament 2) zeroRand 0 0) rfl 2

/-- Full characterisation of a run of selector calls from an arbitrary
selector state: the outputs follow `selSpec` over the remaining codons and
the stream shifted to the current fallback cursor, and the final state
records the dropped codons, the advanced fallback cursor and the updated
consumed-codon counter. -/
lemma selRun_state {β : Type} [Inhabited β] :
    ∀ (css : List (List β)) (it : List Nat) (f : Nat → Nat) (p m : Nat),
      selRun ⟨it, f, p, m⟩ css =
        (selSpec it (fun i => f (p + i)) css,
         ⟨it.drop css.length, f, p + (css.length - it.length),
          m + min css.length it.length⟩) := by
  intro css
  induction css with
  | nil =>
    intro it f p m
    simp [selRun, selSpec]
  | cons cs csr ih =>
    intro it f p m
    cases it with
    | nil =>
      simp only [selRun, selCall]
      rw [ih [] f (p + 1) m]
      have hstream : (fun i => f (p + 1 + i)) = (fun i => f (p + (i + 1))) := by
        funext i
        congr 1
        omega
      simp [selSpec, hstream, Prod.mk.injEq, Selector.mk.injEq]
      omega
    | cons cd cr =>
      simp only [selRun, selCall]
      rw [ih cr f p (m + 1)]
      simp [selSpec, Prod.mk.injEq, Selector.mk.injEq]
      omega

/-- C4.  A selector built from a codon sequence of length `n` resolves its
first `n` calls by consuming the codons in order — the `i`-th call returns
`choices_i[codons_i mod len(choices_i)]`, a value independent of the
fallback generator — and every later call is resolved solely by successive
draws of the generator seeded at construction.  The final state shows the
exhaustion is one-way: after `|css|` calls the remaining iterator is
`codons.drop |css|` (empty forever once exhausted), the fallback cursor has
advanced by exactly the number of post-exhaustion calls, and the consumed
counter is `min |css| n`. -/
theorem c4_selector_codons_then_fallback {β : Type} [Inhabited β] :
    ∀ (hashFn : List Nat → Nat) (scheme : Nat → Nat → Nat)
      (codons : List Nat) (css : List (List β)),
      selRun (selInit hashFn scheme codons) css =
        (selSpec codons (scheme (hashFn codons)) css,
         ⟨codons.drop css.length, scheme (hashFn codons),
          css.length - codons.length, min css.length codons.length⟩) := by
  intro hashFn scheme codons css
  have h := selRun_state css codons (scheme (hashFn codons)) 0 0
  simpa [selInit, Nat.zero_add] using h

/-- C3.  `expand` is deterministic for a fixed grammar, start symbol, depth
bound and hash/seed scheme: two runs with fresh selectors built from
value-equal codon sequences produce identical results, including the
choices resolved after codon exhaustion. -/
theorem c3_expand_deterministic :
    ∀ (hashFn : List Nat → Nat) (scheme : Nat → Nat → Nat)
      (Γ : String → GenProg) (S : String) (maxd : Option Nat) (fuel : Nat)
      (cs1 cs2 : List Nat),
      cs1 = cs2 →
      expandGE hashFn scheme Γ S maxd fuel cs1 =
        expandGE hashFn scheme Γ S maxd fuel cs2 := by
  intro hashFn scheme Γ S maxd fuel cs1 cs2 h
  rw [h]

/-- C3 (witness): the bundled arithmetic grammar with codon sequence `[2]`
(which exhausts after one choice, so the remaining choices come from the
seeded fallback) expands twice to the same concrete artifact
`"(x1 * x0)"`. -/
theorem c3_expand_deterministic_witness :
    (([2] : List Nat) = [2]) ∧
    expandGE List.sum (fun seed i => seed + i) arithG "exp" (some 10) 100 [2] =
      expandGE List.sum (fun seed i => seed + i) arithG "exp" (some 10) 100 [2] ∧
    expandGE List.sum (fun seed i => seed + i) arithG "exp" (some 10) 100 [2] =
      ExpandRes.ok (Val.vstr "(x1 * x0)") :=
  ⟨rfl,
   c3_expand_deterministic List.sum (fun seed i => seed + i) arithG "exp"
     (some 10) 100 [2] [2] rfl,
   rfl⟩

lemma expandLoop_selfrec {χ : Type} (Γ : String → GenProg) (n : String)
    (k : GenProg) (choice : Val → χ → Val × χ) (d : Nat)
    (hΓ : Γ n = GenProg.yld (Expr.call n) k) :
    ∀ (fuel : Nat) (tail : List (GenProg × List Val)) (c : χ),
      1 ≤ fuel → d ≤ fuel + tail.length →
      expandLoop Γ choice (some d) fuel ((Γ n, []) :: tail) Val.vnone c =
        ExpandRes.err "Expansion depth exceeded" := by
  intro fuel
  induction fuel with
  | zero => intro tail c h1 h2; omega
  | succ f ih =>
    intro tail c h1 h2
    by_cases hd : d ≤ tail.length + 1
    · have hdh : depthHit (some d) (tail.length + 1) = true := by
        simp [depthHit, hd]
      simp [expandLoop, hdh]
    · have hdh : depthHit (some d) (tail.length + 1) = false := by
        simp [depthHit]
        omega
      have hstep : genSend Γ (Γ n) [] Val.vnone =
          StepRes.yielded (Val.vgen (Γ n) []) k [Val.vnone] := by
        conv_lhs => rw [hΓ]
        rfl
      simp only [expandLoop, hdh, Bool.false_eq_true, if_false, hstep]
      exact ih ((k, [Val.vnone]) :: tail) c (by omega)
        (by simp only [List.length_cons]; omega)

/-- C5.  On a nonterminal that always recurses into itself (every resume
first requests a nested fresh expansion of the same nonterminal), `expand`
with any finite depth bound `d` raises the `ValueError`
"Expansion depth exceeded" as soon as the pending queue reaches `d`
suspended computations — the depth check runs before each resume, and `d`
loop iterations always suffice to reach the error. -/
theorem c5_expand_selfrecursive_depth_exceeded :
    ∀ {χ : Type} (Γ : String → GenProg) (n : String) (k : GenProg)
      (choice : Val → χ → Val × χ) (c : χ) (d fuel : Nat),
      Γ n = GenProg.yld (Expr.call n) k → 1 ≤ fuel → d ≤ fuel →
      expand Γ n choice (some d) fuel c =
        ExpandRes.err "Expansion depth exceeded" := by
  intro χ Γ n k choice c d fuel hΓ h1 h2
  show expandLoop Γ choice (some d) fuel [(Γ n, [])] Val.vnone c = _
  exact expandLoop_selfrec Γ n k choice d hΓ fuel [] c h1 (by simpa using h2)

/-- C5 (witness): the concrete self-recursive grammar with depth bound `3`
and `4` loop iterations raises the depth error. -/
theorem c5_expand_selfrecursive_depth_exceeded_witness :
    (selfRecG "S" = GenProg.yld (Expr.call "S") (GenProg.ret (Expr.recv 0))) ∧
    (1 ≤ 4) ∧ (3 ≤ 4) ∧
    expand selfRecG "S" echoChoice (some 3) 4 () =
      ExpandRes.err "Expansion depth exceeded" :=
  ⟨rfl, by decide, by decide,
   c5_expand_selfrecursive_depth_exceeded selfRecG "S"
     (GenProg.ret (Expr.recv 0)) echoChoice () 3 4 rfl (by decide) (by decide)⟩

/-- C7 (counterexample).  The claim fails for `max_pending_depth = 1`: the
depth check `len(q) >= maxdepth` fires on the very first iteration (the
queue already holds the start symbol), so `expand` raises the depth error
even though the start symbol would immediately complete with the plain
value "a". -/
theorem c7_depth_one_rejects_immediate_completion :
    expand trivialG "S" echoChoice (some 1) 10 () =
      ExpandRes.err "Expansion depth exceeded" ∧
    ExpandRes.err "Expansion depth exceeded" ≠ ExpandRes.ok (Val.vstr "a") :=
  ⟨rfl, fun h => ExpandRes.noConfusion h⟩

/-- C7 (amended).  For every start symbol whose computation immediately
completes with a plain (non-generator) value `v`, making no choice or
nested-expansion request, and every finite `max_pending_depth` strictly
greater than `1` (the initial queue already holds one entry), `expand`
returns `v` unexpanded without raising any error. -/
theorem c7_expand_immediate_completion :
    ∀ {χ : Type} (Γ : String → GenProg) (S : String) (e : Expr)
      (choice : Val → χ → Val × χ) (c : χ) (d fuel : Nat),
      Γ S = GenProg.ret e →
      (evalExpr Γ [Val.vnone] e).isGen = false →
      2 ≤ d → 2 ≤ fuel →
      expand Γ S choice (some d) fuel c =
        ExpandRes.ok (evalExpr Γ [Val.vnone] e) := by
  intro χ Γ S e choice c d fuel hS hv hd hf
  obtain ⟨f, rfl⟩ : ∃ f, fuel = f + 2 := ⟨fuel - 2, by omega⟩
  show expandLoop Γ choice (some d) (f + 2) [(Γ S, [])] Val.vnone c = _
  have hdh : depthHit (some d) (List.length ([] : List (GenProg × List Val)) + 1) = false := by
    simp [depthHit]
    omega
  have hstep : genSend Γ (Γ S) [] Val.vnone =
      StepRes.stopped (evalExpr Γ [Val.vnone] e) := by
    conv_lhs => rw [hS]
    rfl
  simp only [expandLoop, hdh, Bool.false_eq_true, if_false, hstep]
  generalize hveq : evalExpr Γ [Val.vnone] e = v at hv ⊢
  cases v with
  | vgen p env => simp [Val.isGen] at hv
  | vnone => rfl
  | vstr s => rfl
  | vop g => rfl
  | vseq l => rfl

/-- C7 (witness for the amended theorem): the trivially completing grammar
with depth bound `2` returns the plain value "a". -/
theorem c7_expand_immediate_completion_witness :
    (trivialG "S" = GenProg.ret (Expr.lit (Val.vstr "a"))) ∧
    ((evalExpr trivialG [Val.vnone] (Expr.lit (Val.vstr "a"))).isGen = false) ∧
    (2 ≤ 2) ∧ (2 ≤ 9) ∧
    expand trivialG "S" echoChoice (some 2) 9 () =
      ExpandRes.ok (evalExpr trivialG [Val.vnone] (Expr.lit (Val.vstr "a"))) :=
  ⟨rfl, rfl, by decide, by decide,
   c7_expand_immediate_completion trivialG "S" (Expr.lit (Val.vstr "a"))
     echoChoice () 2 9 rfl rfl (by decide) (by decide)⟩

/-- C10.  `selector.__init__` computes `hash(codons)` at construction time:
for every unhashable codon container (a Python list) construction fails with
the `TypeError` of `hash` before any selection can occur, while every
hashable codon sequence (a tuple) yields a selector whose fallback generator
is seeded from its hash. -/
theorem c10_selector_requires_hashable_codons :
    ∀ (hashFn : List Nat → Nat) (scheme : Nat → Nat → Nat) (cs : List Nat),
      selInitChecked hashFn scheme (PyCodons.list cs) =
        Except.error "unhashable type: list" ∧
      selInitChecked hashFn scheme (PyCodons.tuple cs) =
        Except.ok ⟨cs, scheme (hashFn cs), 0, 0⟩ := by
  intro hashFn scheme cs
  exact ⟨rfl, rfl⟩

end Picoga
